import Mathlib

/-!
Shallow embedding of `passl/modeling/architectures/LVViTWrapper.py`:
the `LVViTWrapper` mode dispatch, the `accuracy` metric, the
`_SoftTargetCrossEntropy` module and the `LVViTLoss` token-labeling loss.

Tensors are modelled as nested lists of rationals (`Vec`, `Mat`), row-major.
The log-softmax applied inside the soft-target cross-entropy is a
transcendental function; it is kept as an explicit parameter
`ls : Vec → Vec` of the embedding, since every property considered here
holds uniformly in it.  All other tensor primitives used by the source
(`repeat`, `reshape`, `transpose`, `topk`, `argmax`, `flip`, elementwise
arithmetic with broadcasting) are given their documented row-major
semantics below.
-/

abbrev Vec := List ℚ

abbrev Mat := List (List ℚ)

/-- Row-major reshape of a flat vector into rows of length `c`:
models `Tensor.reshape([-1, c])`. -/
def chunk {α : Type} (c : Nat) (v : List α) : List (List α) :=
  if h : c = 0 ∨ v.isEmpty then []
  else v.take c :: chunk c (v.drop c)
termination_by v.length
decreasing_by
  push_neg at h
  simp only [List.length_drop]
  exact Nat.sub_lt (List.length_pos.mpr (by simpa using h.2)) (Nat.pos_of_ne_zero h.1)

/-- Models `Tensor.repeat([1, n])` on a 2-D tensor: every row is tiled `n`
times along the column axis. -/
def repeatCols (m : Mat) (n : Nat) : Mat :=
  m.map (fun row => (List.replicate n row).flatten)

/-- Models `Tensor.repeat(r, 1)` on a 2-D tensor: the whole matrix is
stacked `r` times along the row axis. -/
def tileRows {α : Type} (r : Nat) (m : List α) : List α :=
  (List.replicate r m).flatten

/-- Index of the first maximal entry of a row: models `argmax(axis=-1)`
and the index component of `Tensor.max(-1)` on one row. -/
def argmaxRow (v : Vec) : Nat :=
  (List.range v.length).foldl
    (fun best i => if v.getD best 0 < v.getD i 0 then i else best) 0

/-- Indices of the `k` largest entries of a row, ordered by decreasing
value, ties broken towards the smaller index: models the index component
of `Tensor.topk(k, 1, largest=True, sorted=True)` on one row. -/
def topkIdx (k : Nat) (v : Vec) : List Nat :=
  ((List.range v.length).mergeSort
    (fun i j => decide (v.getD j 0 ≤ v.getD i 0))).take k

/-- Index-based transpose of a rectangular 2-D tensor, with default
element `d` (models `Tensor.t()` / `transpose` on a matrix). -/
def mTransposeD {α : Type} (d : α) (m : List (List α)) : List (List α) :=
  (List.range (m.headD []).length).map (fun j => m.map (fun row => row.getD j d))

/-- The target argument of `accuracy`: either a vector of class indices,
or a 2-D soft-label tensor. -/
inductive ATarget
  | idx (t : List Nat)
  | soft (t : Mat)

/-- The `if target.dim() > 1: target = target.argmax(axis=-1)` step of
`accuracy`. -/
def ATarget.collapse : ATarget → List Nat
  | .idx t => t
  | .soft m => m.map argmaxRow

/-- The `accuracy` function of LVViTWrapper.py: top-k accuracy
percentages, one per requested `k`. -/
def accuracy (output : Mat) (target : ATarget) (topk : List Nat) : List ℚ :=
  let maxk := topk.foldr max 0
  let t := target.collapse
  let batch_size := t.length
  let pred := output.map (topkIdx maxk)
  let predT := mTransposeD 0 pred
  let correct : Mat :=
    predT.map (fun prow =>
      List.zipWith (fun p a => if p = a then (1 : ℚ) else 0) prow t)
  topk.map (fun k =>
    ((correct.take k).map (fun r => r.sum)).sum * 100 / batch_size)

/-- One row of `-target * log_softmax(x)` summed over the class axis,
with the log-softmax abstract. -/
def rowCE (ls : Vec → Vec) (t x : Vec) : ℚ :=
  (List.zipWith (fun a b => -a * b) t (ls x)).sum

/-- Models `_SoftTargetCrossEntropy.forward`: if the number of target rows
differs from the number of logit rows, the target block is tiled
`N_rep // N` times along the row axis; then the per-row soft
cross-entropies are averaged. -/
def softTargetCE (ls : Vec → Vec) (x target : Mat) : ℚ :=
  let nrep := x.length
  let n := target.length
  let target2 := if n = nrep then target else tileRows (nrep / n) target
  let loss := List.zipWith (rowCE ls) target2 x
  loss.sum / loss.length

/-- The mixing bounding box `(bbx1, bby1, bbx2, bby2)` produced by the
backbone in training mode, in token-grid coordinates. -/
structure BBox where
  x1 : ℚ
  y1 : ℚ
  x2 : ℚ
  y2 : ℚ

/-- The backbone output consumed by `LVViTLoss.forward`:
`(output, aux_output, bb)` with `output : [B, C]`,
`aux_output : [B, N, C]` and the bounding box. -/
structure BackOut where
  output : Mat
  aux_output : List Mat
  bb : BBox

/-- The target argument of `LVViTLoss.forward`: rank-2 `[B, C]` or
rank-3 `[B, ?, ?]`. -/
inductive LTarget
  | rank2 (t : Mat)
  | rank3 (t : List Mat)

/-- State of the `LVViTLoss` module. -/
structure LVViTLoss where
  dense_weight : ℚ
  cls_weight : ℚ
  ground_truth : Bool

/-- Models `LVViTLoss.__init__`: stores the two weights and the ground-truth
flag; the `assert dense_weight + cls_weight > 0` makes construction fail
(`none`) when the sum of weights is not positive. -/
def LVViTLoss.init (dense_weight cls_weight : ℚ) (g : Bool) : Option LVViTLoss :=
  if dense_weight + cls_weight > 0 then some ⟨dense_weight, cls_weight, g⟩ else none

/-- The slice `target[:, :, i]` of a rank-3 tensor. -/
def sliceIdx (i : Nat) (t : List Mat) : Mat :=
  t.map (fun s => s.map (fun r => r.getD i 0))

/-- The slice `target[:, :, 2:]` of a rank-3 tensor. -/
def dropSlices (t : List Mat) : List Mat :=
  t.map (fun s => s.map (fun r => r.drop 2))

/-- Ground-truth assisted correction of the classification target:
`ratio = (0.9 - 0.4 * (ground_truth.max(-1)[1] == target_cls.max(-1)[1])).unsqueeze(-1)`
then `target_cls = target_cls * ratio + ground_truth * (1 - ratio)`,
with the per-row index component of `max(-1)` modelled by `argmaxRow`
and the `unsqueeze` / broadcast by applying the per-sample scalar to
every entry of the sample's row. -/
def gtBlend (g tc : Mat) : Mat :=
  List.zipWith (fun grow crow =>
    let rt : ℚ := 9/10 - 2/5 * (if argmaxRow grow = argmaxRow crow then 1 else 0)
    List.zipWith (fun cv gv => cv * rt + gv * (1 - rt)) crow grow) g tc

/-- The classification target of `LVViTLoss.forward` before the
region-mix blending: the target itself when rank-2, the slice at index 1
along the last axis (ground-truth corrected when the flag is set) when
rank-3. -/
def targetClsRaw (gtFlag : Bool) (target : LTarget) : Mat :=
  match target with
  | .rank2 t => t
  | .rank3 t =>
      let tc := sliceIdx 1 t
      if gtFlag then gtBlend (sliceIdx 0 t) tc else tc

/-- The auxiliary target of `LVViTLoss.forward`:
rank-2 `target.repeat([1, N]).reshape([B * N, C])`;
rank-3 `target[:, :, 2:].transpose([0, 2, 1]).reshape([-1, C])`. -/
def targetAux (n c : Nat) (target : LTarget) : Mat :=
  match target with
  | .rank2 t => chunk c (repeatCols t n).flatten
  | .rank3 t => chunk c ((dropSlices t).map (mTransposeD (0 : ℚ))).flatten.flatten

/-- Computes `lam = 1 - ((bbx2 - bbx1) * (bby2 - bby1) / N)`. -/
def lamOf (bb : BBox) (n : Nat) : ℚ :=
  1 - ((bb.x2 - bb.x1) * (bb.y2 - bb.y1) / (n : ℚ))

/-- The region-mix blending of the classification target:
`if lam < 1: target_cls = lam * target_cls + (1 - lam) * target_cls.flip(0)`. -/
def lamMix (lam : ℚ) (tc : Mat) : Mat :=
  if lam < 1 then
    List.zipWith (fun a b => List.zipWith (fun p q => lam * p + (1 - lam) * q) a b)
      tc tc.reverse
  else tc

/-- Models `LVViTLoss.forward`, with the log-softmax of the inner
soft-target cross-entropy abstract.  Returns the `losses` mapping as an
association list in insertion order. -/
def LVViTLoss.forward (ls : Vec → Vec) (self : LVViTLoss) (x : BackOut)
    (target : LTarget) : List (String × ℚ) :=
  let n := (x.aux_output.headD []).length
  let c := ((x.aux_output.headD []).headD []).length
  let target_cls := lamMix (lamOf x.bb n) (targetClsRaw self.ground_truth target)
  let target_aux := targetAux n c target
  let aux_flat := chunk c x.aux_output.flatten.flatten
  let loss_cls := softTargetCE ls x.output target_cls
  let loss_aux := softTargetCE ls aux_flat target_aux
  let accs := accuracy x.output (.soft target_cls) [1, 5]
  [("loss", self.cls_weight * loss_cls + self.dense_weight * loss_aux),
   ("acc1", accs.getD 0 0),
   ("acc5", accs.getD 1 0)]

/-- Result of one `LVViTWrapper.forward` call: the loss mapping in
training mode, the raw backbone output in test or inference mode, or the
extracted features. -/
inductive WOut (O F R : Type)
  | train (r : R)
  | raw (o : O)
  | feats (f : F)

/-- Models `LVViTWrapper.train_iter`: reads the `mixup_fn` keyword argument (a missing key
is a lookup error), applies it to `(img, label)` when non-null, then
runs the backbone and the loss module. -/
def train_iter {I L O R : Type} (backbone : I → O) (lossFn : O → L → R)
    (kwMixup : Option (Option (I → L → I × L))) (img : I) (label : L) :
    Except String R :=
  match kwMixup with
  | none => Except.error "KeyError: mixup_fn"
  | some m =>
      let p := match m with
               | some f => f img label
               | none => (img, label)
      Except.ok (lossFn (backbone p.1) p.2)

/-- Models `LVViTWrapper.forward`: dispatch over the `mode` string, raising
an exception whose message is "No such mode: " followed by the mode
string on any other value.
`backbone`, `forward_features` and the loss module are abstract
collaborators; `kwMixup` models the presence and value of the
`mixup_fn` keyword argument. -/
def LVViTWrapper.forward {I L O F R : Type} (backbone : I → O)
    (forward_features : I → F) (lossFn : O → L → R) (mode : String)
    (kwMixup : Option (Option (I → L → I × L))) (img : I) (label : L) :
    Except String (WOut O F R) :=
  if mode = "train" then (train_iter backbone lossFn kwMixup img label).map WOut.train
  else if mode = "test" then Except.ok (WOut.raw (backbone img))
  else if mode = "infer" then Except.ok (WOut.raw (backbone img))
  else if mode = "extract" then Except.ok (WOut.feats (forward_features img))
  else Except.error ("No such mode: " ++ mode)

/-- Claim C1: for every backbone output and target, `LVViTLoss.forward`
returns a mapping with exactly the keys `loss`, `acc1`, `acc5`; the `loss`
entry equals `cls_weight * loss_cls + dense_weight * loss_aux` where
`loss_cls` is the soft-target cross-entropy of the classification logits
against the decomposed and possibly blended classification target and
`loss_aux` is the soft-target cross-entropy of the auxiliary logits
flattened to `[B * N, C]` against the auxiliary target; `acc1` and `acc5`
come from `accuracy` applied to the classification logits and target. -/
theorem C1_forward_loss_structure (ls : Vec → Vec) (self : LVViTLoss)
    (x : BackOut) (target : LTarget) :
    (LVViTLoss.forward ls self x target).map Prod.fst = ["loss", "acc1", "acc5"] ∧
    (LVViTLoss.forward ls self x target).lookup "loss" =
      some (self.cls_weight *
          softTargetCE ls x.output
            (lamMix (lamOf x.bb (x.aux_output.headD []).length)
              (targetClsRaw self.ground_truth target)) +
        self.dense_weight *
          softTargetCE ls
            (chunk ((x.aux_output.headD []).headD []).length
              x.aux_output.flatten.flatten)
            (targetAux (x.aux_output.headD []).length
              ((x.aux_output.headD []).headD []).length target)) ∧
    (LVViTLoss.forward ls self x target).lookup "acc1" =
      some ((accuracy x.output
        (.soft (lamMix (lamOf x.bb (x.aux_output.headD []).length)
          (targetClsRaw self.ground_truth target))) [1, 5]).getD 0 0) ∧
    (LVViTLoss.forward ls self x target).lookup "acc5" =
      some ((accuracy x.output
        (.soft (lamMix (lamOf x.bb (x.aux_output.headD []).length)
          (targetClsRaw self.ground_truth target))) [1, 5]).getD 1 0) :=
  ⟨rfl, rfl, rfl, rfl⟩

/-- Claim C3: in the rank-3 branch with ground-truth correction enabled,
the per-sample mixing ratio is `1/2` when the argmax of the ground-truth
slice (index 0) agrees with the argmax of the classification slice
(index 1) and `9/10` when they differ, and the classification target
becomes `ratio * target_cls + (1 - ratio) * ground_truth` entrywise. -/
theorem C3_ground_truth_ratio (t : List Mat) :
    targetClsRaw true (.rank3 t) =
      List.zipWith (fun grow crow =>
        List.zipWith (fun cv gv =>
          (if argmaxRow grow = argmaxRow crow then (1/2 : ℚ) else 9/10) * cv +
          (1 - (if argmaxRow grow = argmaxRow crow then (1/2 : ℚ) else 9/10)) * gv)
          crow grow)
        (sliceIdx 0 t) (sliceIdx 1 t) := by
  show gtBlend (sliceIdx 0 t) (sliceIdx 1 t) = _
  unfold gtBlend
  have hfun : (fun (grow crow : Vec) =>
      let rt : ℚ := 9/10 - 2/5 * (if argmaxRow grow = argmaxRow crow then 1 else 0)
      List.zipWith (fun cv gv => cv * rt + gv * (1 - rt)) crow grow) =
      (fun (grow crow : Vec) =>
        List.zipWith (fun cv gv =>
          (if argmaxRow grow = argmaxRow crow then (1/2 : ℚ) else 9/10) * cv +
          (1 - (if argmaxRow grow = argmaxRow crow then (1/2 : ℚ) else 9/10)) * gv)
          crow grow) := by
    funext grow crow
    by_cases h : argmaxRow grow = argmaxRow crow
    · simp only [h, if_true]
      have hf : (fun (cv gv : ℚ) =>
          cv * (9/10 - 2/5 * 1) + gv * (1 - (9/10 - 2/5 * 1))) =
          (fun (cv gv : ℚ) => (1/2 : ℚ) * cv + (1 - (1/2 : ℚ)) * gv) := by
        funext cv gv
        ring
      rw [hf]
    · simp only [h, if_false]
      have hf : (fun (cv gv : ℚ) =>
          cv * (9/10 - 2/5 * 0) + gv * (1 - (9/10 - 2/5 * 0))) =
          (fun (cv gv : ℚ) => (9/10 : ℚ) * cv + (1 - (9/10 : ℚ)) * gv) := by
        funext cv gv
        ring
      rw [hf]
  rw [hfun]

/-- Claim C4: with `lam = 1 - (x2 - x1) * (y2 - y1) / N`, the
classification target is blended with its batch-reversed counterpart
exactly when `lam < 1`, and is left completely unmixed when `lam = 1`. -/
theorem C4_region_mix (bb : BBox) (n : Nat) (tc : Mat) :
    (lamOf bb n < 1 →
      lamMix (lamOf bb n) tc =
        List.zipWith (fun a b =>
          List.zipWith (fun p q => lamOf bb n * p + (1 - lamOf bb n) * q) a b)
          tc tc.reverse) ∧
    (lamOf bb n = 1 → lamMix (lamOf bb n) tc = tc) := by
  constructor
  · intro h
    simp [lamMix, h]
  · intro h
    simp [lamMix, h]

/-- Witness for C4 at concrete inputs: a box of area 4 on a grid of 8
tokens gives `lam = 1/2 < 1` and mixes; the empty box gives `lam = 1`
and leaves the target untouched. -/
theorem C4_region_mix_witness :
    (lamOf ⟨0, 0, 2, 2⟩ 8 < 1 ∧
      lamMix (lamOf ⟨0, 0, 2, 2⟩ 8) [[1, 0], [0, 1]] =
        List.zipWith (fun a b =>
          List.zipWith (fun p q =>
            lamOf ⟨0, 0, 2, 2⟩ 8 * p + (1 - lamOf ⟨0, 0, 2, 2⟩ 8) * q) a b)
          [[1, 0], [0, 1]] (List.reverse [[1, 0], [0, 1]])) ∧
    (lamOf ⟨0, 0, 0, 0⟩ 8 = 1 ∧
      lamMix (lamOf ⟨0, 0, 0, 0⟩ 8) [[1, 0], [0, 1]] = [[1, 0], [0, 1]]) :=
  ⟨⟨by norm_num [lamOf], (C4_region_mix ⟨0, 0, 2, 2⟩ 8 [[1, 0], [0, 1]]).1 (by norm_num [lamOf])⟩,
   ⟨by norm_num [lamOf], (C4_region_mix ⟨0, 0, 0, 0⟩ 8 [[1, 0], [0, 1]]).2 (by norm_num [lamOf])⟩⟩

/-- Claim C8: `LVViTLoss` construction fails exactly when
`dense_weight + cls_weight ≤ 0`, succeeds when the sum is positive, and
every successfully constructed module satisfies
`dense_weight + cls_weight > 0`. -/
theorem C8_init_invariant (dw cw : ℚ) (g : Bool) :
    (dw + cw ≤ 0 → LVViTLoss.init dw cw g = none) ∧
    (0 < dw + cw → LVViTLoss.init dw cw g = some ⟨dw, cw, g⟩) ∧
    (∀ l, LVViTLoss.init dw cw g = some l →
      0 < l.dense_weight + l.cls_weight) := by
  refine ⟨fun h => ?_, fun h => ?_, fun l hl => ?_⟩
  · simp [LVViTLoss.init, not_lt.mpr h]
  · simp [LVViTLoss.init, h]
  · by_cases h : 0 < dw + cw
    · rw [LVViTLoss.init, if_pos h] at hl
      cases hl
      exact h
    · rw [LVViTLoss.init, if_neg h] at hl
      cases hl

/-- Witness for C8: construction with both weights zero fails, and
construction with weights `1, 1` succeeds with the invariant holding. -/
theorem C8_init_invariant_witness :
    ((0 : ℚ) + 0 ≤ 0 ∧ LVViTLoss.init 0 0 false = none) ∧
    ((0 : ℚ) < 1 + 1 ∧ LVViTLoss.init 1 1 true = some ⟨1, 1, true⟩) :=
  ⟨⟨by norm_num, (C8_init_invariant 0 0 false).1 (by norm_num)⟩,
   ⟨by norm_num, (C8_init_invariant 1 1 true).2.1 (by norm_num)⟩⟩

/-- Claim C9: `LVViTWrapper.forward` with any mode string other than
`train`, `test`, `infer`, `extract` fails immediately with an error whose
message identifies the invalid mode string, and with any of the four
valid mode strings (and the `mixup_fn` keyword present) no such error is
raised. -/
theorem C9_mode_dispatch {I L O F R : Type} (backbone : I → O) (ff : I → F)
    (lossFn : O → L → R) (mode : String) (mix : Option (I → L → I × L))
    (img : I) (label : L) :
    (mode ∉ (["train", "test", "infer", "extract"] : List String) →
      LVViTWrapper.forward backbone ff lossFn mode (some mix) img label =
        Except.error ("No such mode: " ++ mode)) ∧
    (mode ∈ (["train", "test", "infer", "extract"] : List String) →
      ∀ msg : String,
        LVViTWrapper.forward backbone ff lossFn mode (some mix) img label ≠
          Except.error msg) := by
  constructor
  · intro h
    simp only [List.mem_cons, List.not_mem_nil, or_false, not_or] at h
    obtain ⟨h1, h2, h3, h4⟩ := h
    simp [LVViTWrapper.forward, h1, h2, h3, h4]
  · intro h msg
    simp only [List.mem_cons, List.not_mem_nil, or_false] at h
    rcases h with h | h | h | h <;> subst h <;>
      cases mix <;>
        simp [LVViTWrapper.forward, train_iter, Except.map]

/-- Witness for C9 at a concrete invalid mode string and concrete
collaborators. -/
theorem C9_mode_dispatch_witness :
    ("eval" ∉ (["train", "test", "infer", "extract"] : List String)) ∧
    LVViTWrapper.forward (fun i : Nat => i + 1) (fun i : Nat => i)
        (fun (o : Nat) (l : Nat) => o + l) "eval" (some none) 3 4 =
      Except.error ("No such mode: " ++ "eval") :=
  ⟨by decide,
   (C9_mode_dispatch (fun i : Nat => i + 1) (fun i : Nat => i)
      (fun (o : Nat) (l : Nat) => o + l) "eval" none 3 4).1 (by decide)⟩

/-- Counterexample to claim C10 as stated: when the `mixup_fn` keyword is
not supplied at all, the train-mode call does not succeed with the
original image and label; it fails with a missing-key lookup error
(`kwargs['mixup_fn']` raises `KeyError`). -/
theorem C10_counterexample :
    LVViTWrapper.forward (fun i : Nat => i + 1) (fun i : Nat => i)
        (fun (o : Nat) (l : Nat) => o + l) "train" none 3 4 =
      Except.error "KeyError: mixup_fn" := rfl

/-- Claim C10 (amended): in train mode, `mixup_fn` is applied to
`(image, label)` before the backbone exactly when the keyword is supplied
and non-null; when it is supplied as null, the original image and label
are passed unchanged to the backbone and loss module and the call
succeeds; when the keyword is not supplied, the call fails with a
missing-key error. -/
theorem C10_mixup_handling {I L O F R : Type} (backbone : I → O) (ff : I → F)
    (lossFn : O → L → R) (f : I → L → I × L) (img : I) (label : L) :
    (LVViTWrapper.forward backbone ff lossFn "train" (some (some f)) img label =
      Except.ok (WOut.train (lossFn (backbone (f img label).1) (f img label).2))) ∧
    (LVViTWrapper.forward backbone ff lossFn "train" (some none) img label =
      Except.ok (WOut.train (lossFn (backbone img) label))) ∧
    (LVViTWrapper.forward backbone ff lossFn "train" none img label =
      Except.error "KeyError: mixup_fn") :=
  ⟨rfl, rfl, rfl⟩

theorem tileRows_length {α : Type} (r : Nat) (m : List α) :
    (tileRows r m).length = r * m.length := by
  induction r with
  | zero => simp [tileRows]
  | succ k ih =>
      show (m ++ tileRows k m).length = _
      rw [List.length_append, ih, Nat.succ_mul]
      omega

theorem tileRows_one {α : Type} (m : List α) : tileRows 1 m = m := by
  simp [tileRows]

/-- Claim C2: for logits `x : [M, C]` and target `[N, C]` with
`M = k * N`, the soft-target cross-entropy tiles the target rows
`M / N` times along axis 0 and returns the mean over all `M` rows of the
per-row sum of `-target * log_softmax(x)`; when `M = N` no replication
happens and it is the plain soft cross-entropy mean. -/
theorem C2_soft_target_ce (ls : Vec → Vec) (x target : Mat) (k : Nat)
    (hk : 0 < k) (hN : 0 < target.length) (hlen : x.length = k * target.length) :
    softTargetCE ls x target =
      (List.zipWith (rowCE ls)
        (tileRows (x.length / target.length) target) x).sum / x.length ∧
    (x.length = target.length →
      softTargetCE ls x target =
        (List.zipWith (rowCE ls) target x).sum / x.length) := by
  have hdiv : x.length / target.length = k := by
    rw [hlen]
    exact Nat.mul_div_cancel k hN
  constructor
  · simp only [softTargetCE]
    by_cases h : target.length = x.length
    · rw [if_pos h]
      have hone : x.length / target.length = 1 := by
        rw [← h]
        exact Nat.div_self hN
      rw [hone, tileRows_one, List.length_zipWith, h, min_self]
    · rw [if_neg h]
      have hlen2 : (tileRows (x.length / target.length) target).length = x.length := by
        rw [tileRows_length, hdiv, ← hlen]
      rw [List.length_zipWith, hlen2, min_self]
  · intro hx
    simp only [softTargetCE]
    rw [if_pos hx.symm, List.length_zipWith, hx, min_self]

/-- Witness for C2 at a concrete input: 4 logit rows against 2 target
rows (replication factor 2), with the log-softmax instantiated to the
identity. -/
theorem C2_soft_target_ce_witness :
    (0 < 2 ∧ 0 < ([[(1 : ℚ), 0], [0, 1]] : Mat).length ∧
      ([[(1 : ℚ), 0], [0, 1], [2, 3], [4, 5]] : Mat).length =
        2 * ([[(1 : ℚ), 0], [0, 1]] : Mat).length) ∧
    softTargetCE (fun v => v) [[(1 : ℚ), 0], [0, 1], [2, 3], [4, 5]]
        [[(1 : ℚ), 0], [0, 1]] =
      (List.zipWith (rowCE (fun v => v))
        (tileRows
          (([[(1 : ℚ), 0], [0, 1], [2, 3], [4, 5]] : Mat).length /
            ([[(1 : ℚ), 0], [0, 1]] : Mat).length)
          [[(1 : ℚ), 0], [0, 1]])
        [[(1 : ℚ), 0], [0, 1], [2, 3], [4, 5]]).sum /
        ([[(1 : ℚ), 0], [0, 1], [2, 3], [4, 5]] : Mat).length :=
  ⟨⟨by decide, by decide, by decide⟩,
   (C2_soft_target_ce (fun v => v) [[(1 : ℚ), 0], [0, 1], [2, 3], [4, 5]]
      [[(1 : ℚ), 0], [0, 1]] 2 (by decide) (by decide) (by decide)).1⟩

theorem chunk_nil {α : Type} (c : Nat) : chunk c ([] : List α) = [] := by
  unfold chunk
  simp

theorem chunk_append {α : Type} (c : Nat) (v w : List α) (hc : 0 < c)
    (hv : v.length = c) : chunk c (v ++ w) = v :: chunk c w := by
  rw [chunk]
  rw [dif_neg]
  · rw [← hv, List.take_left, List.drop_left]
  · push_neg
    refine ⟨by omega, ?_⟩
    simp only [ne_eq, List.isEmpty_iff, List.append_eq_nil, not_and]
    intro hv'
    rw [hv'] at hv
    simp at hv
    omega

theorem chunk_flatten_replicate {α : Type} (c n : Nat) (hc : 0 < c)
    (row : List α) (hrow : row.length = c) (w : List α) :
    chunk c ((List.replicate n row).flatten ++ w) =
      List.replicate n row ++ chunk c w := by
  induction n with
  | zero => simp
  | succ m ih =>
      rw [List.replicate_succ, List.flatten_cons, List.append_assoc,
        chunk_append c row _ hc hrow, ih, List.cons_append]

theorem getD_replicate' {α : Type} (n j : Nat) (a d : α) (hj : j < n) :
    (List.replicate n a).getD j d = a := by
  induction n generalizing j with
  | zero => omega
  | succ m ih =>
      cases j with
      | zero => rfl
      | succ i => exact ih i (by omega)

theorem flatten_map_replicate_getD {α : Type} (n : Nat) (t : List α) (d : α)
    (b j : Nat) (hb : b < t.length) (hj : j < n) :
    ((t.map (List.replicate n)).flatten).getD (b * n + j) d = t.getD b d := by
  induction t generalizing b with
  | nil => simp at hb
  | cons a rest ih =>
      cases b with
      | zero =>
          simp only [List.map_cons, List.flatten_cons, Nat.zero_mul, Nat.zero_add]
          rw [List.getD_append _ _ _ _ (by simpa using hj)]
          exact getD_replicate' n j a d hj
      | succ b' =>
          simp only [List.map_cons, List.flatten_cons]
          rw [List.getD_append_right _ _ _ _
            (by simp only [List.length_replicate, Nat.succ_mul]; omega)]
          have h2 : (b' + 1) * n + j - (List.replicate n a).length = b' * n + j := by
            simp only [List.length_replicate, Nat.succ_mul]
            omega
          rw [h2]
          exact ih b' (by simpa using hb)

/-- Claim C5: for a rank-2 target `[B, C]`, the classification target is
the target itself and the auxiliary target is the classification target
replicated identically across all `N` token positions, so the token row
at position `b * N + j` equals sample `b`'s whole-image label. -/
theorem C5_rank2_targets (t : Mat) (n c : Nat) (hc : 0 < c)
    (hrow : ∀ r ∈ t, r.length = c) :
    targetClsRaw false (.rank2 t) = t ∧
    targetAux n c (.rank2 t) = (t.map (List.replicate n)).flatten ∧
    (∀ b j, b < t.length → j < n →
      (targetAux n c (.rank2 t)).getD (b * n + j) [] = t.getD b []) := by
  have haux : targetAux n c (.rank2 t) = (t.map (List.replicate n)).flatten := by
    show chunk c (repeatCols t n).flatten = _
    induction t with
    | nil => exact chunk_nil c
    | cons row rest ih =>
        show chunk c ((List.replicate n row).flatten ++ (repeatCols rest n).flatten) = _
        rw [chunk_flatten_replicate c n hc row (hrow row (by simp)),
          ih (fun r hr => hrow r (by simp [hr]))]
        simp
  refine ⟨rfl, haux, fun b j hb hj => ?_⟩
  rw [haux]
  exact flatten_map_replicate_getD n t [] b j hb hj

/-- Witness for C5 at a concrete input: `B = 2`, `C = 2`, `N = 3`;
token row `1 * 3 + 1` of the auxiliary target equals sample 1's label. -/
theorem C5_rank2_targets_witness :
    (0 < 2 ∧ ∀ r ∈ ([[(1 : ℚ), 2], [3, 4]] : Mat), r.length = 2) ∧
    targetAux 3 2 (.rank2 [[(1 : ℚ), 2], [3, 4]]) =
      (([[(1 : ℚ), 2], [3, 4]] : Mat).map (List.replicate 3)).flatten ∧
    (targetAux 3 2 (.rank2 [[(1 : ℚ), 2], [3, 4]])).getD (1 * 3 + 1) [] =
      ([[(1 : ℚ), 2], [3, 4]] : Mat).getD 1 [] :=
  ⟨⟨by decide, by decide⟩,
   (C5_rank2_targets [[(1 : ℚ), 2], [3, 4]] 3 2 (by decide) (by decide)).2.1,
   (C5_rank2_targets [[(1 : ℚ), 2], [3, 4]] 3 2 (by decide) (by decide)).2.2
     1 1 (by decide) (by decide)⟩

theorem getD_map_lt {α β : Type} (f : α → β) (l : List α) (j : Nat) (d : β)
    (d' : α) (hj : j < l.length) : (l.map f).getD j d = f (l.getD j d') := by
  induction l generalizing j with
  | nil => simp at hj
  | cons a rest ih =>
      cases j with
      | zero => rfl
      | succ i => exact ih i (by simp at hj; omega)

theorem getD_range' (n i : Nat) (hi : i < n) : (List.range n).getD i 0 = i := by
  rw [List.getD_eq_getElem _ _ (by simpa using hi)]
  simp

theorem getD_drop' {α : Type} (l : List α) (n m : Nat) (d : α) :
    (l.drop n).getD m d = l.getD (n + m) d := by
  induction l generalizing n with
  | nil => simp
  | cons a rest ih =>
      cases n with
      | zero => simp
      | succ k =>
          simp only [List.drop_succ_cons]
          rw [ih k]
          have he : k + 1 + m = (k + m) + 1 := by omega
          rw [he, List.getD_cons_succ]

theorem flatten_getD_rect {α : Type} (m : List (List α)) (w : Nat) (d : α)
    (hw : ∀ r ∈ m, r.length = w) (i j : Nat) (hi : i < m.length) (hj : j < w) :
    m.flatten.getD (i * w + j) d = (m.getD i []).getD j d := by
  induction m generalizing i with
  | nil => simp at hi
  | cons r rest ih =>
      cases i with
      | zero =>
          simp only [List.flatten_cons, Nat.zero_mul, Nat.zero_add,
            List.getD_cons_zero]
          exact List.getD_append _ _ _ _ (by rw [hw r (by simp)]; exact hj)
      | succ i' =>
          simp only [List.flatten_cons, List.getD_cons_succ]
          rw [List.getD_append_right _ _ _ _
            (by rw [hw r (by simp), Nat.succ_mul]; omega)]
          have h2 : (i' + 1) * w + j - r.length = i' * w + j := by
            rw [hw r (by simp), Nat.succ_mul]
            omega
          rw [h2]
          exact ih (fun q hq => hw q (by simp [hq])) i' (by simpa using hi)

theorem mTransposeD_getD {α : Type} (d : α) (m : List (List α)) (i : Nat)
    (hi : i < (m.headD []).length) :
    (mTransposeD d m).getD i [] = m.map (fun row => row.getD i d) := by
  unfold mTransposeD
  rw [getD_map_lt _ _ i [] 0 (by simpa using hi), getD_range' _ i hi]

/-- Claim C6: for a rank-3 target of shape `[B, N, K]`, the
classification target is the slice at index 1 along the last axis
(shape `[B, N]`); the auxiliary target is the slices from index 2
onward, transposed so the last axis becomes the leading axis after
batch and flattened into rows of length `C`, with the entry at flat row
`b * (K - 2) + i`, column `j`, equal to `t[b][j][2 + i]`; and the
resulting classification target is the soft-label argument of both the
cross-entropy and the accuracy computation in `LVViTLoss.forward`. -/
theorem C6_rank3_decomposition (t : List Mat) (nn kk : Nat)
    (hs : ∀ s ∈ t, s.length = nn)
    (hr : ∀ s ∈ t, ∀ r ∈ s, r.length = kk) :
    targetClsRaw false (.rank3 t) = sliceIdx 1 t ∧
    ((sliceIdx 1 t).length = t.length ∧ ∀ r ∈ sliceIdx 1 t, r.length = nn) ∧
    (∀ b j, b < t.length → j < nn →
      ((sliceIdx 1 t).getD b []).getD j 0 =
        ((t.getD b []).getD j []).getD 1 0) ∧
    (∀ n c, targetAux n c (.rank3 t) =
      chunk c ((dropSlices t).map (mTransposeD (0 : ℚ))).flatten.flatten) ∧
    (∀ b i j, b < t.length → i < kk - 2 → j < nn →
      ((((dropSlices t).map (mTransposeD (0 : ℚ))).flatten).getD
          (b * (kk - 2) + i) []).getD j 0 =
        ((t.getD b []).getD j []).getD (2 + i) 0) ∧
    (∀ (ls : Vec → Vec) (w1 w2 : ℚ) (x : BackOut),
      (LVViTLoss.forward ls ⟨w1, w2, false⟩ x (.rank3 t)).lookup "loss" =
        some (w2 * softTargetCE ls x.output
            (lamMix (lamOf x.bb (x.aux_output.headD []).length) (sliceIdx 1 t)) +
          w1 * softTargetCE ls
            (chunk ((x.aux_output.headD []).headD []).length
              x.aux_output.flatten.flatten)
            (targetAux (x.aux_output.headD []).length
              ((x.aux_output.headD []).headD []).length (.rank3 t))) ∧
      (LVViTLoss.forward ls ⟨w1, w2, false⟩ x (.rank3 t)).lookup "acc1" =
        some ((accuracy x.output
          (.soft (lamMix (lamOf x.bb (x.aux_output.headD []).length)
            (sliceIdx 1 t))) [1, 5]).getD 0 0)) := by
  refine ⟨rfl, ⟨by simp [sliceIdx], ?_⟩, ?_, fun n c => rfl, ?_,
    fun ls w1 w2 x => ⟨rfl, rfl⟩⟩
  · intro r hrm
    simp only [sliceIdx, List.mem_map] at hrm
    obtain ⟨s, hsmem, rfl⟩ := hrm
    simp [hs s hsmem]
  · intro b j hb hj
    have hmem : t.getD b [] ∈ t := by
      rw [List.getD_eq_getElem t [] hb]
      exact List.getElem_mem hb
    simp only [sliceIdx]
    rw [getD_map_lt (fun s : Mat => s.map fun r => r.getD 1 0) t b [] [] hb,
      getD_map_lt (fun r : Vec => r.getD 1 0) (t.getD b []) j (0 : ℚ) []
        (by rw [hs _ hmem]; exact hj)]
  · intro b i j hb hi hj
    have hnn : 0 < nn := Nat.lt_of_le_of_lt (Nat.zero_le j) hj
    have hmem : t.getD b [] ∈ t := by
      rw [List.getD_eq_getElem t [] hb]
      exact List.getElem_mem hb
    have hwidth : ∀ s ∈ t, ((s.map (fun r => r.drop 2)).headD []).length = kk - 2 := by
      intro s hsm
      cases s with
      | nil =>
          have h0 := hs _ hsm
          simp only [List.length_nil] at h0
          simp only [List.map_nil, List.headD_nil, List.length_nil]
          omega
      | cons r rest =>
          simp only [List.map_cons, List.headD_cons, List.length_drop]
          rw [hr _ hsm r (by simp)]
    have houter : ∀ mat ∈ (dropSlices t).map (mTransposeD (0 : ℚ)),
        mat.length = kk - 2 := by
      intro mat hmat
      simp only [dropSlices, List.map_map, List.mem_map, Function.comp] at hmat
      obtain ⟨s, hsm, rfl⟩ := hmat
      show (mTransposeD 0 (s.map fun r => r.drop 2)).length = kk - 2
      simp only [mTransposeD, List.length_map, List.length_range]
      exact hwidth s hsm
    rw [flatten_getD_rect _ (kk - 2) [] houter b i
      (by simpa [dropSlices] using hb) hi]
    have hmb : ((dropSlices t).map (mTransposeD (0 : ℚ))).getD b [] =
        mTransposeD 0 ((t.getD b []).map (fun r => r.drop 2)) := by
      rw [getD_map_lt (mTransposeD 0) (dropSlices t) b [] []
        (by simpa [dropSlices] using hb)]
      congr 1
      show (List.map _ t).getD b [] = _
      rw [getD_map_lt (fun s => s.map fun r => r.drop 2) t b [] [] hb]
    rw [hmb, mTransposeD_getD 0 _ i (by rw [hwidth _ hmem]; exact hi),
      List.map_map]
    simp only [Function.comp_def]
    rw [getD_map_lt (fun r => (List.drop 2 r).getD i 0) _ j (0 : ℚ) []
      (by rw [hs _ hmem]; exact hj)]
    exact getD_drop' _ 2 i 0

/-- Witness for C6 at a concrete rank-3 target with `B = 1`, `N = 2`,
`K = 4`. -/
theorem C6_rank3_decomposition_witness :
    ((∀ s ∈ ([[[(1 : ℚ), 2, 3, 4], [5, 6, 7, 8]]] : List Mat), s.length = 2) ∧
      (∀ s ∈ ([[[(1 : ℚ), 2, 3, 4], [5, 6, 7, 8]]] : List Mat),
        ∀ r ∈ s, r.length = 4)) ∧
    ((sliceIdx 1 [[[(1 : ℚ), 2, 3, 4], [5, 6, 7, 8]]]).getD 0 []).getD 1 0 =
      ((([[[(1 : ℚ), 2, 3, 4], [5, 6, 7, 8]]] : List Mat).getD 0 []).getD 1 []).getD 1 0 ∧
    ((((dropSlices [[[(1 : ℚ), 2, 3, 4], [5, 6, 7, 8]]]).map
        (mTransposeD (0 : ℚ))).flatten).getD (0 * (4 - 2) + 1) []).getD 1 0 =
      ((([[[(1 : ℚ), 2, 3, 4], [5, 6, 7, 8]]] : List Mat).getD 0 []).getD 1 []).getD (2 + 1) 0 :=
  ⟨⟨by decide, by decide⟩,
   (C6_rank3_decomposition [[[(1 : ℚ), 2, 3, 4], [5, 6, 7, 8]]] 2 4
      (by decide) (by decide)).2.2.1 0 1 (by decide) (by decide),
   (C6_rank3_decomposition [[[(1 : ℚ), 2, 3, 4], [5, 6, 7, 8]]] 2 4
      (by decide) (by decide)).2.2.2.2.1 0 1 1 (by decide) (by decide) (by decide)⟩

theorem sum_map_range {M : Type} [AddCommMonoid M] (f : Nat → M) (n : Nat) :
    ((List.range n).map f).sum = ∑ i ∈ Finset.range n, f i := by
  induction n with
  | zero => simp
  | succ m ih =>
      rw [List.range_succ, List.map_append, List.sum_append,
        Finset.sum_range_succ, ih]
      simp

theorem sum_zipWith_eq {α β M : Type} [AddCommMonoid M] (f : α → β → M)
    (l1 : List α) (l2 : List β) (d1 : α) (d2 : β) (h : l1.length = l2.length) :
    (List.zipWith f l1 l2).sum =
      ∑ b ∈ Finset.range l1.length, f (l1.getD b d1) (l2.getD b d2) := by
  induction l1 generalizing l2 with
  | nil => simp
  | cons a rest ih =>
      cases l2 with
      | nil => simp at h
      | cons b rest2 =>
          simp only [List.zipWith_cons_cons, List.sum_cons, List.length_cons]
          rw [Finset.sum_range_succ']
          simp only [List.getD_cons_succ, List.getD_cons_zero]
          rw [ih rest2 (by simpa using h)]
          exact add_comm _ _

theorem mem_le_foldr_max (l : List Nat) (k : Nat) (hk : k ∈ l) :
    k ≤ l.foldr max 0 := by
  induction l with
  | nil => simp at hk
  | cons a rest ih =>
      simp only [List.foldr_cons]
      rcases List.mem_cons.mp hk with rfl | h
      · exact le_max_left _ _
      · exact le_trans (ih h) (le_max_right _ _)

theorem length_topkIdx (k : Nat) (v : Vec) :
    (topkIdx k v).length = min k v.length := by
  simp [topkIdx, List.length_take, List.length_mergeSort]

theorem nodup_topkIdx (k : Nat) (v : Vec) : (topkIdx k v).Nodup := by
  apply List.Nodup.sublist (List.take_sublist _ _)
  exact ((List.mergeSort_perm _ _).nodup_iff).mpr (List.nodup_range _)

theorem topkIdx_take (k maxk : Nat) (v : Vec) (h : k ≤ maxk) :
    (topkIdx maxk v).take k = topkIdx k v := by
  simp [topkIdx, List.take_take, Nat.min_eq_left h]

theorem count_take_eq_sum (l : List Nat) (a k : Nat) (hk : k ≤ l.length) :
    (l.take k).count a =
      ∑ ii ∈ Finset.range k, if l.getD ii 0 = a then 1 else 0 := by
  induction k with
  | zero => simp
  | succ m ih =>
      rw [Finset.sum_range_succ, ← ih (by omega), List.take_succ,
        List.count_append]
      congr 1
      rw [List.getElem?_eq_getElem (by omega : m < l.length)]
      rw [List.getD_eq_getElem l 0 (by omega : m < l.length)]
      simp [List.count_cons, beq_iff_eq]

theorem nodup_count_ite {α : Type} [DecidableEq α] (l : List α) (hl : l.Nodup)
    (a : α) : l.count a = if a ∈ l then 1 else 0 := by
  by_cases h : a ∈ l
  · rw [if_pos h]
    exact List.count_eq_one_of_mem hl h
  · rw [if_neg h]
    exact List.count_eq_zero_of_not_mem h

theorem sum_ite_getD_eq_memTake (l : List Nat) (a k : Nat) (hk : k ≤ l.length)
    (hl : l.Nodup) :
    (∑ ii ∈ Finset.range k, if l.getD ii 0 = a then (1 : ℚ) else 0) =
      if a ∈ l.take k then 1 else 0 := by
  have h1 := count_take_eq_sum l a k hk
  have h2 : (l.take k).count a = if a ∈ l.take k then 1 else 0 :=
    nodup_count_ite _ (List.Nodup.sublist (List.take_sublist _ _) hl) a
  have h3 : ((∑ ii ∈ Finset.range k, if l.getD ii 0 = a then (1 : ℕ) else 0 : ℕ) : ℚ) =
      ∑ ii ∈ Finset.range k, if l.getD ii 0 = a then (1 : ℚ) else 0 := by
    push_cast
    rfl
  rw [← h3, ← h1, h2]
  split <;> simp

set_option maxHeartbeats 1000000 in
theorem accuracy_eq_filter_card (output : Mat) (tgt : ATarget) (topk : List Nat)
    (c : Nat) (hrow : ∀ r ∈ output, r.length = c)
    (hmaxk : topk.foldr max 0 ≤ c)
    (hB : tgt.collapse.length = output.length)
    (hB0 : 0 < output.length) :
    accuracy output tgt topk = topk.map (fun k =>
      (((Finset.range output.length).filter
        (fun b => tgt.collapse.getD b 0 ∈ topkIdx k (output.getD b []))).card : ℚ)
        * 100 / output.length) := by
  have hw : ((output.map (topkIdx (topk.foldr max 0))).headD []).length =
      topk.foldr max 0 := by
    cases output with
    | nil => simp at hB0
    | cons o rest =>
        simp only [List.map_cons, List.headD_cons]
        rw [length_topkIdx, hrow o (by simp)]
        exact Nat.min_eq_left hmaxk
  simp only [accuracy]
  apply List.map_congr_left
  intro k hkmem
  have hk' : k ≤ topk.foldr max 0 := mem_le_foldr_max topk k hkmem
  rw [hB]
  congr 1
  congr 1
  simp only [mTransposeD]
  rw [hw, List.map_map, ← List.map_take, List.take_range, Nat.min_eq_left hk',
    List.map_map, sum_map_range]
  simp only [Function.comp_def]
  rw [Finset.sum_congr rfl (fun j hj =>
    sum_zipWith_eq (fun p a => if p = a then (1 : ℚ) else 0) _ tgt.collapse 0 0
      (by simp [List.length_map, hB]))]
  simp only [List.length_map]
  rw [Finset.sum_comm]
  rw [Finset.sum_congr rfl (fun b hb => ?_)]
  · exact Finset.sum_boole _ _
  have hbB : b < output.length := Finset.mem_range.mp hb
  have hOb : output.getD b [] ∈ output := by
    rw [List.getD_eq_getElem output [] hbB]
    exact List.getElem_mem hbB
  rw [Finset.sum_congr rfl (fun j hj => by
    rw [getD_map_lt (fun row : List ℕ => row.getD j 0) _ b (0 : ℕ) []
        (by simpa using hbB),
      getD_map_lt (topkIdx (topk.foldr max 0)) output b [] [] hbB])]
  rw [sum_ite_getD_eq_memTake _ _ k
      (by rw [length_topkIdx, hrow _ hOb, Nat.min_eq_left hmaxk]; exact hk')
      (nodup_topkIdx _ _),
    topkIdx_take k _ _ hk']

/-- Claim C7: for a `[B, C]` logits tensor with `B > 0`, a target of
matching batch size and a k-set whose maximum is at most `C`, `accuracy`
returns one scalar per `k` in order, each equal to
`(count of rows whose true class is among the top-k predictions) * 100 / B`
and hence in `[0, 100]`; a multi-dimensional target is first collapsed to
its per-row argmax; and when the target equals the top-1 prediction for
every row, the value for `k = 1` is `100`. -/
theorem C7_accuracy (output : Mat) (tgt : ATarget) (topk : List Nat) (c : Nat)
    (hrow : ∀ r ∈ output, r.length = c)
    (hmaxk : topk.foldr max 0 ≤ c)
    (hB : tgt.collapse.length = output.length)
    (hB0 : 0 < output.length) :
    (accuracy output tgt topk).length = topk.length ∧
    accuracy output tgt topk = topk.map (fun k =>
      (((Finset.range output.length).filter
        (fun b => tgt.collapse.getD b 0 ∈ topkIdx k (output.getD b []))).card : ℚ)
        * 100 / output.length) ∧
    (∀ q ∈ accuracy output tgt topk, 0 ≤ q ∧ q ≤ 100) ∧
    accuracy output tgt topk = accuracy output (.idx tgt.collapse) topk ∧
    ((∀ b, b < output.length →
        tgt.collapse.getD b 0 ∈ topkIdx 1 (output.getD b [])) →
      ∀ i, i < topk.length → topk.getD i 0 = 1 →
        (accuracy output tgt topk).getD i 0 = 100) := by
  have hmain := accuracy_eq_filter_card output tgt topk c hrow hmaxk hB hB0
  have hBQ : (0 : ℚ) < (output.length : ℚ) := by exact_mod_cast hB0
  refine ⟨by rw [hmain]; simp, hmain, ?_, rfl, ?_⟩
  · intro q hq
    rw [hmain] at hq
    simp only [List.mem_map] at hq
    obtain ⟨k, hk, rfl⟩ := hq
    constructor
    · apply div_nonneg _ (le_of_lt hBQ)
      positivity
    · rw [div_le_iff hBQ]
      have hcard : (((Finset.range output.length).filter
          (fun b => tgt.collapse.getD b 0 ∈ topkIdx k (output.getD b []))).card : ℚ) ≤
          (output.length : ℚ) := by
        exact_mod_cast le_trans (Finset.card_filter_le _ _) (le_of_eq (Finset.card_range _))
      nlinarith
  · intro hall i hi hki
    have hki2 : topk[i] = 1 := by
      rw [← List.getD_eq_getElem topk 0 hi]
      exact hki
    rw [hmain, List.getD_eq_getElem _ 0 (by simpa using hi)]
    simp only [List.getElem_map, hki2]
    rw [Finset.filter_true_of_mem (fun b hb => hall b (Finset.mem_range.mp hb))]
    rw [Finset.card_range, mul_comm, mul_div_assoc,
      div_self (ne_of_gt hBQ), mul_one]

/-- Witness for C7 at a concrete input: three rows of 3-class logits,
with an index target hitting the top-1 prediction in two of three rows. -/
theorem C7_accuracy_witness :
    ((∀ r ∈ ([[(1 : ℚ), 2, 3], [9, 2, 1], [1, 9, 1]] : Mat), r.length = 3) ∧
      ([1, 2] : List Nat).foldr max 0 ≤ 3 ∧
      (ATarget.idx [2, 0, 0]).collapse.length =
        ([[(1 : ℚ), 2, 3], [9, 2, 1], [1, 9, 1]] : Mat).length ∧
      0 < ([[(1 : ℚ), 2, 3], [9, 2, 1], [1, 9, 1]] : Mat).length) ∧
    accuracy [[(1 : ℚ), 2, 3], [9, 2, 1], [1, 9, 1]] (.idx [2, 0, 0]) [1, 2] =
      ([1, 2] : List Nat).map (fun k =>
        (((Finset.range ([[(1 : ℚ), 2, 3], [9, 2, 1], [1, 9, 1]] : Mat).length).filter
          (fun b => (ATarget.idx [2, 0, 0]).collapse.getD b 0 ∈
            topkIdx k (([[(1 : ℚ), 2, 3], [9, 2, 1], [1, 9, 1]] : Mat).getD b []))).card : ℚ)
          * 100 / ([[(1 : ℚ), 2, 3], [9, 2, 1], [1, 9, 1]] : Mat).length) :=
  ⟨⟨by decide, by decide, by decide, by decide⟩,
   (C7_accuracy [[(1 : ℚ), 2, 3], [9, 2, 1], [1, 9, 1]] (.idx [2, 0, 0]) [1, 2] 3
      (by decide) (by decide) (by decide) (by decide)).2.1⟩
